import Mathlib

/-!
Verification of the `ferris-says` formatting routine (`src/lib.rs`).

Strings are embedded as `List Char`.  The crate's external dependencies are
modelled as follows, each faithful to the documented behaviour that the
source relies on:

* `unicode_width::UnicodeWidthStr::width`  →  `FerrisSays.strWidth`, summing a
  per-character terminal-column width (`charWidth`): control characters 0,
  combining marks 0, East-Asian wide/fullwidth ranges 2, everything else 1.
* the regex `([^\S\r\n])+` replaced by a single space
  (`Regex::replace_all`)  →  `FerrisSays.merge_white_spaces`, a scanner that
  collapses each maximal run of horizontal whitespace (Unicode whitespace
  that is neither LF nor CR) into one ASCII space.
* `textwrap::fill`  →  `FerrisSays.fill`: the text is split on LF, each part
  is split into space-separated words, words wider than the requested width
  are broken at character boundaries into maximal pieces (textwrap's default
  `break_words = true`), and words are assembled greedily into lines joined
  by single spaces; parts are re-joined with LF.
* Rust `str::lines`  →  `FerrisSays.rustLines`: split on LF, strip one
  trailing CR from every line that was terminated by LF, drop a final empty
  part produced by a trailing LF.

The renderer (`say`, `longest_line`, the border and token emission) is
transcribed line by line from the source.
-/

namespace FerrisSays

/-- Model of the per-character terminal display width used by the
`unicode-width` crate: control characters count 0, combining marks count 0,
East-Asian wide and fullwidth ranges count 2, ordinary characters count 1. -/
def charWidth (c : Char) : Nat :=
  let n := c.toNat
  if n < 0x20 then 0
  else if n = 0x7f then 0
  else if 0x0300 ≤ n ∧ n ≤ 0x036f then 0
  else if 0x1ab0 ≤ n ∧ n ≤ 0x1aff then 0
  else if 0x20d0 ≤ n ∧ n ≤ 0x20ff then 0
  else if (0x1100 ≤ n ∧ n ≤ 0x115f) ∨ (0x2e80 ≤ n ∧ n ≤ 0x303e) ∨
          (0x3041 ≤ n ∧ n ≤ 0x33ff) ∨ (0x3400 ≤ n ∧ n ≤ 0x4dbf) ∨
          (0x4e00 ≤ n ∧ n ≤ 0x9fff) ∨ (0xa000 ≤ n ∧ n ≤ 0xa4cf) ∨
          (0xac00 ≤ n ∧ n ≤ 0xd7a3) ∨ (0xf900 ≤ n ∧ n ≤ 0xfaff) ∨
          (0xfe30 ≤ n ∧ n ≤ 0xfe4f) ∨ (0xff00 ≤ n ∧ n ≤ 0xff60) ∨
          (0xffe0 ≤ n ∧ n ≤ 0xffe6) ∨ (0x20000 ≤ n ∧ n ≤ 0x3fffd) then 2
  else 1

/-- Model of `unicode_width::UnicodeWidthStr::width`: the sum of the
per-character display widths. -/
def strWidth (s : List Char) : Nat :=
  (s.map charWidth).sum

/-- Unicode `White_Space` code points, the character class matched by `\s`
in the `regex` crate. -/
def isWhitespaceU (c : Char) : Bool :=
  let n := c.toNat
  n = 0x09 || n = 0x0a || n = 0x0b || n = 0x0c || n = 0x0d || n = 0x20 ||
  n = 0x85 || n = 0xa0 || n = 0x1680 || (0x2000 ≤ n && n ≤ 0x200a) ||
  n = 0x2028 || n = 0x2029 || n = 0x202f || n = 0x205f || n = 0x3000

/-- The character class `[^\S\r\n]` of the source regex: whitespace that is
neither a line feed nor a carriage return. -/
def isHorizWhitespace (c : Char) : Bool :=
  isWhitespaceU c && !(c = '\n') && !(c = '\r')

/-- Scanner core of the whitespace merge: `inRun` records whether the
previous character belonged to a horizontal-whitespace run (in which case
further run characters are dropped); the first character of each run is
emitted as one ASCII space. -/
def mergeAux : Bool → List Char → List Char
  | _, [] => []
  | true, c :: cs =>
    if isHorizWhitespace c then mergeAux true cs else c :: mergeAux false cs
  | false, c :: cs =>
    if isHorizWhitespace c then ' ' :: mergeAux true cs else c :: mergeAux false cs

/-- Model of `merge_white_spaces` from the source: `Regex::replace_all` with
pattern `([^\S\r\n])+` and replacement `" "` replaces every maximal run of
horizontal whitespace by a single ASCII space, leaving LF and CR intact. -/
def merge_white_spaces (s : List Char) : List Char :=
  mergeAux false s

/-- Spec-side restatement of the normalizer, written directly from the
spec's words: "replaces every maximal run of one-or-more horizontal
whitespace characters with a single ASCII space"; used only to be compared
against `merge_white_spaces`. -/
def collapseRunsSpec : List Char → List Char
  | [] => []
  | c :: cs =>
    if isHorizWhitespace c then
      ' ' :: collapseRunsSpec (cs.dropWhile isHorizWhitespace)
    else
      c :: collapseRunsSpec cs
termination_by s => s.length
decreasing_by
  · have h : ∀ (l : List Char), (l.dropWhile isHorizWhitespace).length ≤ l.length := by
      intro l
      induction l with
      | nil => simp [List.dropWhile]
      | cons a as ih =>
        simp only [List.dropWhile]
        split
        · exact Nat.le_succ_of_le ih
        · simp
    have h2 := h cs
    simp only [List.length_cons]
    omega
  · simp

/-- Prepend a character to the first part of a part list. -/
def consHead (c : Char) : List (List Char) → List (List Char)
  | [] => [[c]]
  | p :: ps => (c :: p) :: ps

/-- Split a character list at every occurrence of `sep`; always returns at
least one (possibly empty) part.  `splitOnChar '\n'` models splitting a text
into its lines, `splitOnChar ' '` underlies word separation. -/
def splitOnChar (sep : Char) : List Char → List (List Char)
  | [] => [[]]
  | c :: cs =>
    if c = sep then [] :: splitOnChar sep cs
    else consHead c (splitOnChar sep cs)

/-- The run state of the whitespace scanner after a list of characters:
whether the last character seen was horizontal whitespace. -/
def runEnd (b : Bool) (xs : List Char) : Bool :=
  xs.foldl (fun _ c => isHorizWhitespace c) b

/-- Model of textwrap's ASCII-space word separation: the maximal nonempty
runs of non-space characters. -/
def splitWords (s : List Char) : List (List Char) :=
  (splitOnChar ' ' s).filter (fun p => !p.isEmpty)

/-- Extend a word fragment of accumulated width `accW` with further
characters while the total width stays within `w`, mirroring textwrap's
`break_apart` loop: a break never happens while the accumulated width is
still zero (the `width > 0` guard), so a fragment always absorbs everything
up to and including its first positive-width character.  Returns the
fragment's remaining characters and the unconsumed rest. -/
def breakOneAux (w accW : Nat) : List Char → List Char × List Char
  | [] => ([], [])
  | c :: cs =>
    if accW = 0 ∨ accW + charWidth c ≤ w then
      let pr := breakOneAux w (accW + charWidth c) cs
      (c :: pr.1, pr.2)
    else
      ([], c :: cs)

/-- Take one maximal fragment of display width at most `w` (but always at
least one character) from the front of a word. -/
def breakOne (w : Nat) : List Char → List Char × List Char
  | [] => ([], [])
  | c :: cs =>
    let pr := breakOneAux w (charWidth c) cs
    (c :: pr.1, pr.2)

/-- Fuel-driven core of the word breaker; each step consumes at least one
character, so `fuel = word.length` always suffices. -/
def breakFragsAux (w : Nat) : Nat → List Char → List (List Char)
  | _, [] => []
  | 0, _ :: _ => []
  | fuel + 1, c :: cs =>
    let pr := breakOne w (c :: cs)
    pr.1 :: breakFragsAux w fuel pr.2

/-- Break a word into consecutive maximal fragments of display width at most
`w` (a fragment is a lone character when that character alone exceeds `w`). -/
def breakFrags (w : Nat) (word : List Char) : List (List Char) :=
  breakFragsAux w word.length word

/-- Model of textwrap's `break_words` pass (on by default in
`Options::new`): words whose display width exceeds the line width are broken
at character boundaries; fitting words pass through unchanged. -/
def breakWord (w : Nat) (word : List Char) : List (List Char) :=
  if strWidth word ≤ w then [word] else breakFrags w word

/-- Greedy first-fit assembly of words into lines: the current line `cur`
is extended by a space and the next word while the result's display width
stays within `w`; otherwise the current line is emitted and the word starts
a new line.  textwrap's default wrap algorithm is optimal-fit, which may
pick different break points for multi-word text; the renderer facts proved
below are parametric in the produced line list, and the word-breaking fact
is restricted to single-word inputs, where every width-respecting assembly
produces the same lines. -/
def greedyAux (w : Nat) : List Char → List (List Char) → List (List Char)
  | cur, [] => [cur]
  | cur, word :: ws =>
    if strWidth cur + 1 + strWidth word ≤ w then
      greedyAux w (cur ++ ' ' :: word) ws
    else
      cur :: greedyAux w word ws

/-- Wrap a list of words into lines; with no words at all the result is one
empty line, as `textwrap::wrap` returns `[""]` for an empty input line. -/
def greedyWrap (w : Nat) (words : List (List Char)) : List (List Char) :=
  match words with
  | [] => [[]]
  | word :: ws => greedyAux w word ws

/-- Wrap one LF-free input line: separate it into words, break over-wide
words, and assemble the pieces greedily. -/
def wrapLine (w : Nat) (line : List Char) : List (List Char) :=
  greedyWrap w (((splitWords line).map (breakWord w)).flatten)

/-- Join parts with a single LF between consecutive parts. -/
def joinNl : List (List Char) → List Char
  | [] => []
  | [l] => l
  | l :: l2 :: ls => l ++ '\n' :: joinNl (l2 :: ls)

/-- Model of `textwrap::fill` with the crate's default options: the text is
split into lines on LF, each line is wrapped separately, and everything is
re-joined with LF.  Two default passes are deliberately not modelled: the
`HyphenSplitter` word splitter (which splits a word at hyphens it already
contains) and the Unicode line-breaking word separator (which adds break
opportunities inside words at UAX #14 break points); the facts proved below
are either parametric in the produced line list or restricted to words of
ASCII letters and digits, on which both passes are identities. -/
def fill (s : List Char) (w : Nat) : List Char :=
  joinNl ((splitOnChar '\n' s).map (fun line => joinNl (wrapLine w line)))

/-- Remove one trailing CR, modelling how Rust's `str::lines` treats a CRLF
line terminator. -/
def stripCR1 (l : List Char) : List Char :=
  if l.getLast? = some '\r' then l.dropLast else l

/-- Post-processing of the LF-split parts performed by Rust's `str::lines`:
every part that was terminated by an LF loses one trailing CR, and a final
empty part (from a trailing LF, or from the empty string) is dropped. -/
def rustLinesAux : List (List Char) → List (List Char)
  | [] => []
  | [p] => if p.isEmpty then [] else [p]
  | p :: q :: ps => stripCR1 p :: rustLinesAux (q :: ps)

/-- Model of Rust's `str::lines`, as used on the wrapped text in `say`. -/
def rustLines (s : List Char) : List (List Char) :=
  rustLinesAux (splitOnChar '\n' s)

/-- Transcription of `longest_line` from the source: the maximum display
width over the lines, `0` when there are none
(`.map(width).max().unwrap_or(0)`). -/
def longest_line (lines : List (List Char)) : Nat :=
  (lines.map strWidth).foldr max 0

/-- The left border token pushed for row `i` of `line_count` rows, from the
first `if` chain of the body loop in `say`. -/
def leftToken (line_count i : Nat) : List Char :=
  if line_count = 1 then ['<', ' ']
  else if i = 0 then ['/', ' ']
  else if i = line_count - 1 then ['\\', ' ']
  else ['|', ' ']

/-- The right border token pushed for row `i` of `line_count` rows, from the
second `if` chain of the body loop in `say` (the source writes the token and
the LF together; the LF is appended separately in `renderRow`). -/
def rightToken (line_count i : Nat) : List Char :=
  if line_count = 1 then [' ', '>']
  else if i = 0 then [' ', '\\']
  else if i = line_count - 1 then [' ', '/']
  else [' ', '|']

/-- One body row of the bubble: left token, line text, `aw - width(line)`
padding spaces (the source's `for _ in line_len..actual_width` loop), right
token, LF. -/
def renderRow (line_count aw i : Nat) (line : List Char) : List Char :=
  leftToken line_count i ++ line ++
    List.replicate (aw - strWidth line) ' ' ++ rightToken line_count i ++ ['\n']

/-- All body rows of the bubble, in order. -/
def bodyRows (lines : List (List Char)) : List (List Char) :=
  (lines.enum).map (fun p => renderRow lines.length (longest_line lines) p.1 p.2)

/-- The top border: one space, `aw + 2` underscores, LF. -/
def topBorder (aw : Nat) : List Char :=
  ' ' :: (List.replicate (aw + 2) '_' ++ ['\n'])

/-- The bottom border: one space and `aw + 2` dashes, with no trailing LF of
its own. -/
def bottomBorder (aw : Nat) : List Char :=
  ' ' :: List.replicate (aw + 2) '-'

/-- The apostrophe character, kept out of string literals. -/
def apos : Char := Char.ofNat 39

/-- The default (non-clippy) mascot byte constant from the source, which
begins and ends with its own LF. -/
def MASCOT_FERRIS : List Char :=
  ('\n' :: "        \\\n         \\\n            _~^~^~_\n        \\) /  o o  \\ (/\n          ".toList)
    ++ [apos] ++ "_   -   _".toList ++ [apos]
    ++ "\n          / ".toList ++ [apos] ++ "-----".toList ++ [apos] ++ " \\\n".toList

/-- The alternative mascot selected by the `clippy` build feature. -/
def MASCOT_CLIPPY : List Char :=
  ('\n' :: "        \\\n         \\\n            __\n           /  \\\n           |  |\n           @  @\n           |  |\n           || |/\n           || ||\n           |\\_/|\n           \\___/\n".toList)

/-- The mascot constant selected by the build-time `cfg!(feature = "clippy")`
switch. -/
def mascotFor (clippy : Bool) : List Char :=
  if clippy then MASCOT_CLIPPY else MASCOT_FERRIS

/-- The mascot used by `say` in the default build. -/
def MASCOT : List Char := mascotFor false

/-- The wrapped lines that `say` renders:
`fill(merge_white_spaces(input), max_width).lines().collect()`. -/
def sayLines (input : List Char) (max_width : Nat) : List (List Char) :=
  rustLines (fill (merge_white_spaces input) max_width)

/-- Transcription of `say` from the source: the assembled output buffer
(top border, body rows, bottom border, mascot). -/
def say (input : List Char) (max_width : Nat) : List Char :=
  let lines := sayLines input max_width
  let aw := longest_line lines
  topBorder aw ++ (bodyRows lines).flatten ++ bottomBorder aw ++ MASCOT

/-- The `Result` returned by `say` for a sink whose `write_all` is modelled
by `writeAll`: the buffer is assembled totally and written once, so the call
result is exactly the sink's result on the assembled buffer. -/
def sayWrite {ε : Type} (writeAll : List Char → Except ε Unit)
    (input : List Char) (max_width : Nat) : Except ε Unit :=
  writeAll (say input max_width)

/-- The largest value of Rust's `usize` on a 64-bit target. -/
def USIZE_MAX : Nat := 2 ^ 64 - 1

/-- `usize` addition with the debug-mode overflow panic made explicit. -/
def checkedAdd (a b : Nat) : Option Nat :=
  if a + b ≤ USIZE_MAX then some (a + b) else none

/-- The body-row padding count with the would-be underflow of
`actual_width - line_len` made explicit (the source's range
`line_len..actual_width` is empty rather than panicking, but a negative
count would mean the padding is ill-defined). -/
def checkedPad (aw ll : Nat) : Option Nat :=
  if ll ≤ aw then some (aw - ll) else none

/-- `renderRow` with its padding count checked. -/
def renderRowChecked (line_count aw i : Nat) (line : List Char) : Option (List Char) := do
  let pad ← checkedPad aw (strWidth line)
  pure (leftToken line_count i ++ line ++ List.replicate pad ' ' ++
    rightToken line_count i ++ ['\n'])

/-- All body rows, each with its padding count checked. -/
def rowsChecked (line_count aw : Nat) : List (Nat × List Char) → Option (List (List Char))
  | [] => some []
  | p :: ps => do
    let r ← renderRowChecked line_count aw p.1 p.2
    let rs ← rowsChecked line_count aw ps
    pure (r :: rs)

/-- `say` with every potentially-panicking internal step made explicit: the
two `actual_width + 2` border computations are checked against `usize`
overflow and every body row's padding count is checked against underflow. -/
def sayChecked (input : List Char) (max_width : Nat) : Option (List Char) := do
  let lines := sayLines input max_width
  let aw := longest_line lines
  let t ← checkedAdd aw 2
  let rows ← rowsChecked lines.length aw lines.enum
  let b ← checkedAdd aw 2
  pure ((' ' :: (List.replicate t '_' ++ ['\n'])) ++ rows.flatten ++
    (' ' :: List.replicate b '-') ++ MASCOT)

theorem strWidth_nil : strWidth [] = 0 := rfl

theorem strWidth_cons (c : Char) (s : List Char) :
    strWidth (c :: s) = charWidth c + strWidth s := by
  simp [strWidth]

theorem strWidth_append (a b : List Char) :
    strWidth (a ++ b) = strWidth a + strWidth b := by
  simp [strWidth]

theorem charWidth_le_two (c : Char) : charWidth c ≤ 2 := by
  simp only [charWidth]
  repeat' split
  all_goals omega

theorem strWidth_le_two_mul_length (s : List Char) : strWidth s ≤ 2 * s.length := by
  induction s with
  | nil => simp [strWidth]
  | cons c cs ih =>
    have hc := charWidth_le_two c
    rw [strWidth_cons]
    simp only [List.length_cons]
    omega

theorem charWidth_head_le (c : Char) (s : List Char) :
    charWidth c ≤ strWidth (c :: s) := by
  rw [strWidth_cons]
  omega

theorem mergeAux_nil (b : Bool) : mergeAux b [] = [] := by
  cases b <;> rfl

theorem mergeAux_true_cons_ws {c : Char} (h : isHorizWhitespace c = true) (cs : List Char) :
    mergeAux true (c :: cs) = mergeAux true cs := by
  simp [mergeAux, h]

theorem mergeAux_false_cons_ws {c : Char} (h : isHorizWhitespace c = true) (cs : List Char) :
    mergeAux false (c :: cs) = ' ' :: mergeAux true cs := by
  simp [mergeAux, h]

theorem mergeAux_cons_not_ws {c : Char} (h : isHorizWhitespace c = false) (b : Bool)
    (cs : List Char) : mergeAux b (c :: cs) = c :: mergeAux false cs := by
  cases b <;> simp [mergeAux, h]

theorem mergeAux_ws_is_space (s : List Char) :
    ∀ (b : Bool), ∀ c ∈ mergeAux b s, isHorizWhitespace c = true → c = ' ' := by
  induction s with
  | nil =>
    intro b c hc
    rw [mergeAux_nil] at hc
    simp at hc
  | cons a as ih =>
    intro b c hc hws
    by_cases ha : isHorizWhitespace a
    · cases b with
      | true =>
        rw [mergeAux_true_cons_ws ha] at hc
        exact ih true c hc hws
      | false =>
        rw [mergeAux_false_cons_ws ha] at hc
        rcases List.mem_cons.mp hc with h | h
        · exact h
        · exact ih true c h hws
    · rw [mergeAux_cons_not_ws (by simpa using ha)] at hc
      rcases List.mem_cons.mp hc with h | h
      · subst h
        simp [hws] at ha
      · exact ih false c h hws

theorem mergeAux_true_head_not_ws (s : List Char) :
    ∀ c, (mergeAux true s).head? = some c → isHorizWhitespace c = false := by
  induction s with
  | nil =>
    intro c hc
    rw [mergeAux_nil] at hc
    simp at hc
  | cons a as ih =>
    intro c hc
    by_cases ha : isHorizWhitespace a
    · rw [mergeAux_true_cons_ws ha] at hc
      exact ih c hc
    · rw [mergeAux_cons_not_ws (by simpa using ha)] at hc
      simp only [List.head?_cons, Option.some.injEq] at hc
      subst hc
      simpa using ha

theorem mergeAux_no_adjacent_ws (s : List Char) :
    ∀ (b : Bool),
      List.Chain' (fun a c => ¬(isHorizWhitespace a = true ∧ isHorizWhitespace c = true))
        (mergeAux b s) := by
  induction s with
  | nil =>
    intro b
    rw [mergeAux_nil]
    simp
  | cons a as ih =>
    intro b
    by_cases ha : isHorizWhitespace a
    · cases b with
      | true =>
        rw [mergeAux_true_cons_ws ha]
        exact ih true
      | false =>
        rw [mergeAux_false_cons_ws ha]
        rw [List.chain'_cons']
        refine ⟨?_, ih true⟩
        intro y hy
        have := mergeAux_true_head_not_ws as y hy
        simp [this]
    · rw [mergeAux_cons_not_ws (by simpa using ha)]
      rw [List.chain'_cons']
      refine ⟨?_, ih false⟩
      intro y _
      intro hcon
      exact ha hcon.1

theorem mergeAux_id_of_normal (s : List Char)
    (h1 : ∀ c ∈ s, isHorizWhitespace c = true → c = ' ')
    (h2 : List.Chain' (fun a c => ¬(isHorizWhitespace a = true ∧ isHorizWhitespace c = true)) s) :
    mergeAux false s = s := by
  induction s with
  | nil => rw [mergeAux_nil]
  | cons a as ih =>
    by_cases ha : isHorizWhitespace a
    · rw [mergeAux_false_cons_ws ha]
      have haeq : a = ' ' := h1 a (List.mem_cons_self a as) ha
      have htail : mergeAux true as = mergeAux false as := by
        cases as with
        | nil => rw [mergeAux_nil, mergeAux_nil]
        | cons d ds =>
          have hd : isHorizWhitespace d = false := by
            rw [List.chain'_cons] at h2
            have h3 := h2.1
            by_contra hcon
            simp only [Bool.not_eq_false] at hcon
            exact h3 ⟨ha, hcon⟩
          rw [mergeAux_cons_not_ws hd, mergeAux_cons_not_ws hd]
      rw [haeq, htail, ih]
      · intro c hc hwc
        exact h1 c (List.mem_cons_of_mem a hc) hwc
      · exact (List.chain'_cons'.mp h2).2
    · rw [mergeAux_cons_not_ws (by simpa using ha)]
      rw [ih]
      · intro c hc hwc
        exact h1 c (List.mem_cons_of_mem a hc) hwc
      · exact (List.chain'_cons'.mp h2).2

theorem mergeAux_count (x : Char) (hx : isHorizWhitespace x = false) (hxs : x ≠ ' ')
    (s : List Char) :
    ∀ (b : Bool), (mergeAux b s).count x = s.count x := by
  induction s with
  | nil =>
    intro b
    rw [mergeAux_nil]
  | cons a as ih =>
    intro b
    by_cases ha : isHorizWhitespace a
    · have hax : (a = x) = False := by
        simp only [eq_iff_iff, iff_false]
        intro h
        subst h
        simp [ha] at hx
      cases b with
      | true =>
        rw [mergeAux_true_cons_ws ha, ih true, List.count_cons]
        simp [hax]
      | false =>
        rw [mergeAux_false_cons_ws ha, List.count_cons, List.count_cons, ih true]
        have hsx : (' ' = x) = False := by
          simp only [eq_iff_iff, iff_false]
          intro h
          exact hxs h.symm
        simp [hax, hsx]
    · rw [mergeAux_cons_not_ws (by simpa using ha), List.count_cons, List.count_cons, ih false]

theorem runEnd_nil (b : Bool) : runEnd b [] = b := rfl

theorem runEnd_cons (b : Bool) (c : Char) (cs : List Char) :
    runEnd b (c :: cs) = runEnd (isHorizWhitespace c) cs := rfl

theorem mergeAux_append (xs : List Char) :
    ∀ (b : Bool) (ys : List Char),
      mergeAux b (xs ++ ys) = mergeAux b xs ++ mergeAux (runEnd b xs) ys := by
  induction xs with
  | nil =>
    intro b ys
    rw [List.nil_append, mergeAux_nil, List.nil_append, runEnd_nil]
  | cons a as ih =>
    intro b ys
    rw [List.cons_append, runEnd_cons]
    by_cases ha : isHorizWhitespace a
    · cases b with
      | true =>
        rw [mergeAux_true_cons_ws ha, mergeAux_true_cons_ws ha, ih true ys, ha]
      | false =>
        rw [mergeAux_false_cons_ws ha, mergeAux_false_cons_ws ha, ih true ys, ha,
          List.cons_append]
    · have haf : isHorizWhitespace a = false := by simpa using ha
      rw [mergeAux_cons_not_ws haf, mergeAux_cons_not_ws haf, ih false ys, haf,
        List.cons_append]

theorem mergeAux_true_eq_dropWhile (s : List Char) :
    mergeAux true s = mergeAux false (s.dropWhile isHorizWhitespace) := by
  induction s with
  | nil => rw [mergeAux_nil, List.dropWhile_nil, mergeAux_nil]
  | cons a as ih =>
    by_cases ha : isHorizWhitespace a
    · rw [mergeAux_true_cons_ws ha, ih, List.dropWhile_cons_of_pos ha]
    · have haf : isHorizWhitespace a = false := by simpa using ha
      rw [mergeAux_cons_not_ws haf, List.dropWhile_cons_of_neg ha,
        mergeAux_cons_not_ws haf]

set_option maxHeartbeats 2000000 in
theorem collapse_nil : collapseRunsSpec [] = [] := by
  rw [collapseRunsSpec]

theorem collapse_cons_ws {c : Char} (h : isHorizWhitespace c = true) (cs : List Char) :
    collapseRunsSpec (c :: cs) = ' ' :: collapseRunsSpec (cs.dropWhile isHorizWhitespace) := by
  rw [collapseRunsSpec]
  simp [h]

theorem collapse_cons_not_ws {c : Char} (h : isHorizWhitespace c = false) (cs : List Char) :
    collapseRunsSpec (c :: cs) = c :: collapseRunsSpec cs := by
  rw [collapseRunsSpec]
  simp [h]

theorem merge_eq_collapseRunsSpec (s : List Char) :
    merge_white_spaces s = collapseRunsSpec s := by
  induction s using collapseRunsSpec.induct with
  | case1 =>
    rw [collapse_nil]
    simp [merge_white_spaces, mergeAux_nil]
  | case2 c cs hws ih =>
    unfold merge_white_spaces at ih ⊢
    rw [mergeAux_false_cons_ws hws, mergeAux_true_eq_dropWhile, ih, collapse_cons_ws hws]
  | case3 c cs hws ih =>
    unfold merge_white_spaces at ih ⊢
    have haf : isHorizWhitespace c = false := by simpa using hws
    rw [mergeAux_cons_not_ws haf, ih, collapse_cons_not_ws haf]

theorem mergeAux_length_le (s : List Char) :
    ∀ (b : Bool), (mergeAux b s).length ≤ s.length := by
  induction s with
  | nil =>
    intro b
    rw [mergeAux_nil]
  | cons a as ih =>
    intro b
    by_cases ha : isHorizWhitespace a
    · cases b with
      | true =>
        rw [mergeAux_true_cons_ws ha]
        exact Nat.le_succ_of_le (ih true)
      | false =>
        rw [mergeAux_false_cons_ws ha]
        simpa using ih true
    · rw [mergeAux_cons_not_ws (by simpa using ha)]
      simpa using ih false

theorem splitOnChar_cons_sep {sep c : Char} (h : c = sep) (cs : List Char) :
    splitOnChar sep (c :: cs) = [] :: splitOnChar sep cs := by
  simp [splitOnChar, h]

theorem splitOnChar_cons_ne {sep c : Char} (h : ¬c = sep) (cs : List Char) :
    splitOnChar sep (c :: cs) = consHead c (splitOnChar sep cs) := by
  simp [splitOnChar, h]

theorem splitOnChar_ne_nil (sep : Char) (s : List Char) : splitOnChar sep s ≠ [] := by
  cases s with
  | nil => simp [splitOnChar]
  | cons c cs =>
    by_cases h : c = sep
    · rw [splitOnChar_cons_sep h]
      simp
    · rw [splitOnChar_cons_ne h]
      cases splitOnChar sep cs with
      | nil => simp [consHead]
      | cons p ps => simp [consHead]

theorem mem_splitOnChar_not_sep (sep : Char) (s : List Char) :
    ∀ p ∈ splitOnChar sep s, sep ∉ p := by
  induction s with
  | nil =>
    intro p hp
    simp only [splitOnChar, List.mem_singleton] at hp
    subst hp
    simp
  | cons c cs ih =>
    intro p hp
    by_cases h : c = sep
    · rw [splitOnChar_cons_sep h] at hp
      rcases List.mem_cons.mp hp with h2 | h2
      · subst h2; simp
      · exact ih p h2
    · rw [splitOnChar_cons_ne h] at hp
      cases hsp : splitOnChar sep cs with
      | nil => exact absurd hsp (splitOnChar_ne_nil sep cs)
      | cons q qs =>
        rw [hsp] at hp
        simp only [consHead] at hp
        rcases List.mem_cons.mp hp with h2 | h2
        · subst h2
          intro hmem
          rcases List.mem_cons.mp hmem with h3 | h3
          · exact h h3.symm
          · exact ih q (by rw [hsp]; exact List.mem_cons_self q qs) h3
        · exact ih p (by rw [hsp]; exact List.mem_cons_of_mem q h2)

theorem splitOnChar_sum_length (sep : Char) (s : List Char) :
    ((splitOnChar sep s).map List.length).sum ≤ s.length := by
  induction s with
  | nil => simp [splitOnChar]
  | cons c cs ih =>
    by_cases h : c = sep
    · rw [splitOnChar_cons_sep h]
      simp only [List.map_cons, List.sum_cons, List.length_nil, List.length_cons]
      omega
    · rw [splitOnChar_cons_ne h]
      cases hsp : splitOnChar sep cs with
      | nil => exact absurd hsp (splitOnChar_ne_nil sep cs)
      | cons q qs =>
        rw [hsp] at ih
        simp only [consHead, List.map_cons, List.sum_cons, List.length_cons]
        simp only [List.map_cons, List.sum_cons] at ih
        omega

theorem splitOnChar_sum_width (sep : Char) (s : List Char) :
    ((splitOnChar sep s).map strWidth).sum ≤ strWidth s := by
  induction s with
  | nil => simp [splitOnChar, strWidth]
  | cons c cs ih =>
    by_cases h : c = sep
    · rw [splitOnChar_cons_sep h]
      simp only [List.map_cons, List.sum_cons, strWidth_nil, strWidth_cons]
      omega
    · rw [splitOnChar_cons_ne h]
      cases hsp : splitOnChar sep cs with
      | nil => exact absurd hsp (splitOnChar_ne_nil sep cs)
      | cons q qs =>
        rw [hsp] at ih
        simp only [consHead, List.map_cons, List.sum_cons, strWidth_cons]
        simp only [List.map_cons, List.sum_cons] at ih
        omega

theorem splitOnChar_of_not_mem {sep : Char} {s : List Char} (h : sep ∉ s) :
    splitOnChar sep s = [s] := by
  induction s with
  | nil => rfl
  | cons c cs ih =>
    have hc : ¬c = sep := by
      intro he
      exact h (by rw [he]; exact List.mem_cons_self sep cs)
    rw [splitOnChar_cons_ne hc, ih (fun hm => h (List.mem_cons_of_mem c hm))]
    simp [consHead]

theorem splitOnChar_append_cons {sep : Char} {a : List Char} (h : sep ∉ a) (t : List Char) :
    splitOnChar sep (a ++ sep :: t) = a :: splitOnChar sep t := by
  induction a with
  | nil =>
    rw [List.nil_append, splitOnChar_cons_sep rfl]
  | cons c cs ih =>
    have hc : ¬c = sep := by
      intro he
      exact h (by rw [he]; exact List.mem_cons_self sep cs)
    rw [List.cons_append, splitOnChar_cons_ne hc,
      ih (fun hm => h (List.mem_cons_of_mem c hm))]
    simp [consHead]

theorem nat_mem_le_sum {l : List Nat} {x : Nat} (h : x ∈ l) : x ≤ l.sum := by
  induction l with
  | nil => simp at h
  | cons a as ih =>
    rcases List.mem_cons.mp h with h2 | h2
    · subst h2
      simp
    · have := ih h2
      simp only [List.sum_cons]
      omega

theorem nat_sublist_sum_le {l1 l2 : List Nat} (h : List.Sublist l1 l2) : l1.sum ≤ l2.sum := by
  induction h with
  | slnil => simp
  | cons a _ ih =>
    simp only [List.sum_cons]
    omega
  | cons₂ a _ ih =>
    simp only [List.sum_cons]
    omega

theorem mem_splitOnChar_width_le (sep : Char) (s : List Char) :
    ∀ p ∈ splitOnChar sep s, strWidth p ≤ strWidth s := by
  intro p hp
  have h1 : strWidth p ∈ (splitOnChar sep s).map strWidth := List.mem_map_of_mem _ hp
  exact le_trans (nat_mem_le_sum h1) (splitOnChar_sum_width sep s)

theorem splitWords_sum_width (s : List Char) :
    ((splitWords s).map strWidth).sum ≤ strWidth s := by
  have hsub : List.Sublist (splitWords s) (splitOnChar ' ' s) := List.filter_sublist _
  exact le_trans (nat_sublist_sum_le (hsub.map strWidth)) (splitOnChar_sum_width ' ' s)

theorem splitWords_sum_length (s : List Char) :
    ((splitWords s).map List.length).sum ≤ s.length := by
  have hsub : List.Sublist (splitWords s) (splitOnChar ' ' s) := List.filter_sublist _
  exact le_trans (nat_sublist_sum_le (hsub.map List.length)) (splitOnChar_sum_length ' ' s)

theorem mem_splitWords_ne_nil (s : List Char) : ∀ p ∈ splitWords s, p ≠ [] := by
  intro p hp
  have h2 := List.of_mem_filter hp
  simpa using h2

theorem mem_splitWords_no_space (s : List Char) : ∀ p ∈ splitWords s, ' ' ∉ p := by
  intro p hp
  exact mem_splitOnChar_not_sep ' ' s p (List.mem_of_mem_filter hp)

theorem splitWords_of_no_space {s : List Char} (h : ' ' ∉ s) (hne : s ≠ []) :
    splitWords s = [s] := by
  unfold splitWords
  rw [splitOnChar_of_not_mem h]
  simp [hne]

theorem splitWords_nil : splitWords [] = [] := rfl

theorem count_le_sum_length {l : List (List Char)} (h : ∀ p ∈ l, p ≠ []) :
    l.length ≤ (l.map List.length).sum := by
  induction l with
  | nil => simp
  | cons a as ih =>
    have ha : a ≠ [] := h a (List.mem_cons_self a as)
    have h1 : 1 ≤ a.length := by
      cases a with
      | nil => exact absurd rfl ha
      | cons x xs => simp
    have h2 := ih (fun p hp => h p (List.mem_cons_of_mem a hp))
    simp only [List.length_cons, List.map_cons, List.sum_cons]
    omega

theorem strWidth_flatten (L : List (List Char)) :
    strWidth L.flatten = (L.map strWidth).sum := by
  induction L with
  | nil => simp [strWidth]
  | cons a as ih =>
    simp only [List.flatten_cons, strWidth_append, List.map_cons, List.sum_cons, ih]

theorem breakOneAux_append (w : Nat) (l : List Char) :
    ∀ a, (breakOneAux w a l).1 ++ (breakOneAux w a l).2 = l := by
  induction l with
  | nil => intro a; simp [breakOneAux]
  | cons c cs ih =>
    intro a
    simp only [breakOneAux]
    split
    · simp only [List.cons_append]
      rw [ih]
    · simp

theorem breakOne_append (w : Nat) (l : List Char) :
    (breakOne w l).1 ++ (breakOne w l).2 = l := by
  cases l with
  | nil => simp [breakOne]
  | cons c cs =>
    simp only [breakOne, List.cons_append]
    rw [breakOneAux_append]

theorem breakOne_fst_cons (w : Nat) (c : Char) (cs : List Char) :
    (breakOne w (c :: cs)).1 = c :: (breakOneAux w (charWidth c) cs).1 := rfl

theorem breakOneAux_snd_length_le (w : Nat) (l : List Char) :
    ∀ a, (breakOneAux w a l).2.length ≤ l.length := by
  induction l with
  | nil =>
    intro a
    simp [breakOneAux]
  | cons c cs ih =>
    intro a
    simp only [breakOneAux]
    split
    · exact Nat.le_succ_of_le (ih _)
    · simp

theorem breakOne_snd_length_le (w : Nat) (c : Char) (cs : List Char) :
    (breakOne w (c :: cs)).2.length ≤ cs.length := by
  exact breakOneAux_snd_length_le w cs (charWidth c)

theorem breakFragsAux_congr (w : Nat) :
    ∀ (f1 : Nat), ∀ (word : List Char) (f2 : Nat), word.length ≤ f1 → word.length ≤ f2 →
      breakFragsAux w f1 word = breakFragsAux w f2 word := by
  intro f1
  induction f1 with
  | zero =>
    intro word f2 h1 _
    have hw : word = [] := List.eq_nil_of_length_eq_zero (Nat.le_zero.mp h1)
    subst hw
    cases f2 <;> rfl
  | succ n ih =>
    intro word f2 h1 h2
    cases word with
    | nil => cases f2 <;> rfl
    | cons c cs =>
      cases f2 with
      | zero => simp at h2
      | succ m =>
        simp only [breakFragsAux]
        have hlen := breakOne_snd_length_le w c cs
        simp only [List.length_cons] at h1 h2
        rw [ih (breakOne w (c :: cs)).2 m (by omega) (by omega)]

theorem breakFrags_nil (w : Nat) : breakFrags w [] = [] := rfl

theorem breakFrags_cons (w : Nat) (c : Char) (cs : List Char) :
    breakFrags w (c :: cs) =
      (breakOne w (c :: cs)).1 :: breakFrags w (breakOne w (c :: cs)).2 := by
  unfold breakFrags
  simp only [List.length_cons, breakFragsAux]
  have hlen := breakOne_snd_length_le w c cs
  rw [breakFragsAux_congr w cs.length (breakOne w (c :: cs)).2
    (breakOne w (c :: cs)).2.length hlen (le_refl _)]

theorem breakFrags_rec (w : Nat) (P : List Char → Prop) (h0 : P [])
    (hstep : ∀ c cs, P (breakOne w (c :: cs)).2 → P (c :: cs)) :
    ∀ word, P word := by
  have key : ∀ (n : Nat) (word : List Char), word.length ≤ n → P word := by
    intro n
    induction n with
    | zero =>
      intro word hw
      have hnil : word = [] := List.eq_nil_of_length_eq_zero (Nat.le_zero.mp hw)
      rw [hnil]
      exact h0
    | succ n ih =>
      intro word hw
      cases word with
      | nil => exact h0
      | cons c cs =>
        apply hstep
        apply ih
        have hlen := breakOne_snd_length_le w c cs
        simp only [List.length_cons] at hw
        omega
  intro word
  exact key word.length word (le_refl _)

theorem breakFrags_flatten (w : Nat) (word : List Char) :
    (breakFrags w word).flatten = word := by
  induction word using breakFrags_rec w with
  | h0 => simp [breakFrags_nil]
  | hstep c cs ih =>
    rw [breakFrags_cons, List.flatten_cons, ih]
    exact breakOne_append w (c :: cs)

theorem mem_breakFrags_ne_nil (w : Nat) (word : List Char) :
    ∀ f ∈ breakFrags w word, f ≠ [] := by
  induction word using breakFrags_rec w with
  | h0 => simp [breakFrags_nil]
  | hstep c cs ih =>
    intro f hf
    rw [breakFrags_cons] at hf
    rcases List.mem_cons.mp hf with h2 | h2
    · subst h2
      rw [breakOne_fst_cons]
      simp
    · exact ih f h2

theorem mem_breakFrags_subset (w : Nat) (word : List Char) :
    ∀ f ∈ breakFrags w word, ∀ c ∈ f, c ∈ word := by
  intro f hf c hc
  rw [← breakFrags_flatten w word]
  exact List.mem_flatten.mpr ⟨f, hf, hc⟩

theorem breakOneAux_width (w : Nat) (l : List Char) :
    ∀ a, 1 ≤ a → a ≤ w → a + strWidth (breakOneAux w a l).1 ≤ w := by
  induction l with
  | nil =>
    intro a _ haw
    simpa [breakOneAux, strWidth] using haw
  | cons c cs ih =>
    intro a ha1 haw
    simp only [breakOneAux]
    split
    · rename_i hfit
      have hfit2 : a + charWidth c ≤ w := by
        rcases hfit with h0 | h2
        · omega
        · exact h2
      rw [strWidth_cons]
      have := ih (a + charWidth c) (by omega) hfit2
      omega
    · simpa [strWidth] using haw

theorem breakOne_width_le (w : Nat) (c : Char) (cs : List Char)
    (h1 : 1 ≤ charWidth c) (h2 : charWidth c ≤ w) :
    strWidth (breakOne w (c :: cs)).1 ≤ w := by
  have := breakOneAux_width w cs (charWidth c) h1 h2
  rw [breakOne_fst_cons, strWidth_cons]
  omega

theorem breakOneAux_snd_overflow (w : Nat) (l : List Char) :
    ∀ a cR csR, (breakOneAux w a l).2 = cR :: csR →
      w < a + strWidth (breakOneAux w a l).1 + charWidth cR := by
  induction l with
  | nil =>
    intro a cR csR h
    simp [breakOneAux] at h
  | cons c cs ih =>
    intro a cR csR h
    simp only [breakOneAux] at h ⊢
    by_cases hfit : a = 0 ∨ a + charWidth c ≤ w
    · rw [if_pos hfit] at h ⊢
      simp only at h ⊢
      have := ih (a + charWidth c) cR csR h
      rw [strWidth_cons]
      omega
    · rw [if_neg hfit] at h ⊢
      simp only at h ⊢
      push_neg at hfit
      have hc : cR = c := by
        injection h with h1 h2
        exact h1.symm
      subst hc
      simp only [strWidth_nil]
      omega

theorem breakOne_snd_overflow (w : Nat) (c : Char) (cs : List Char) :
    ∀ cR csR, (breakOne w (c :: cs)).2 = cR :: csR →
      w < strWidth (breakOne w (c :: cs)).1 + charWidth cR := by
  intro cR csR h
  have h2 : (breakOneAux w (charWidth c) cs).2 = cR :: csR := h
  have := breakOneAux_snd_overflow w cs (charWidth c) cR csR h2
  rw [breakOne_fst_cons, strWidth_cons]
  omega

theorem breakFrags_chain (w : Nat) (word : List Char) :
    List.Chain' (fun a b => w < strWidth a + strWidth b) (breakFrags w word) := by
  induction word using breakFrags_rec w with
  | h0 => simp [breakFrags_nil]
  | hstep c cs ih =>
    rw [breakFrags_cons]
    rw [List.chain'_cons']
    refine ⟨?_, ih⟩
    intro y hy
    cases hsnd : (breakOne w (c :: cs)).2 with
    | nil =>
      rw [hsnd, breakFrags_nil] at hy
      simp at hy
    | cons cR csR =>
      rw [hsnd, breakFrags_cons] at hy
      simp only [List.head?_cons, Option.mem_def, Option.some.injEq] at hy
      subst hy
      have h1 : w < strWidth (breakOne w (c :: cs)).1 + charWidth cR :=
        breakOne_snd_overflow w c cs cR csR hsnd
      have h2 : charWidth cR ≤ strWidth (breakOne w (cR :: csR)).1 := by
        rw [breakOne_fst_cons, strWidth_cons]
        omega
      omega

theorem mem_breakFrags_width_le (w : Nat) (word : List Char) :
    (∀ c ∈ word, 1 ≤ charWidth c ∧ charWidth c ≤ w) →
    ∀ f ∈ breakFrags w word, strWidth f ≤ w := by
  induction word using breakFrags_rec w with
  | h0 =>
    intro _ f hf
    rw [breakFrags_nil] at hf
    simp at hf
  | hstep c cs ih =>
    intro h f hf
    rw [breakFrags_cons] at hf
    rcases List.mem_cons.mp hf with h2 | h2
    · subst h2
      have hc := h c (List.mem_cons_self c cs)
      exact breakOne_width_le w c cs hc.1 hc.2
    · refine ih ?_ f h2
      intro d hd
      apply h
      have hdmem : d ∈ (breakOne w (c :: cs)).1 ++ (breakOne w (c :: cs)).2 :=
        List.mem_append_right _ hd
      rw [breakOne_append] at hdmem
      exact hdmem

theorem breakWord_flatten (w : Nat) (word : List Char) :
    (breakWord w word).flatten = word := by
  unfold breakWord
  split
  · simp
  · exact breakFrags_flatten w word

theorem mem_breakWord_ne_nil (w : Nat) {word : List Char} (hw : word ≠ []) :
    ∀ f ∈ breakWord w word, f ≠ [] := by
  unfold breakWord
  split
  · intro f hf
    rw [List.mem_singleton] at hf
    subst hf
    exact hw
  · exact mem_breakFrags_ne_nil w word

theorem mem_breakWord_subset (w : Nat) (word : List Char) :
    ∀ f ∈ breakWord w word, ∀ c ∈ f, c ∈ word := by
  intro f hf c hc
  rw [← breakWord_flatten w word]
  exact List.mem_flatten.mpr ⟨f, hf, hc⟩

theorem breakWord_sumW (w : Nat) {word : List Char} (hw : word ≠ []) :
    ((breakWord w word).map (fun f => strWidth f + 1)).sum ≤ strWidth word + word.length := by
  have hlen : 1 ≤ word.length := by
    cases word with
    | nil => exact absurd rfl hw
    | cons x xs => simp
  unfold breakWord
  split
  · simp only [List.map_cons, List.map_nil, List.sum_cons, List.sum_nil]
    omega
  · have hflat := breakFrags_flatten w word
    have hwsum : ((breakFrags w word).map strWidth).sum = strWidth word := by
      rw [← hflat, strWidth_flatten, hflat]
    have hlsum : ((breakFrags w word).map List.length).sum = word.length := by
      have := congrArg List.length hflat
      rwa [List.length_flatten] at this
    have hcount : (breakFrags w word).length ≤ ((breakFrags w word).map List.length).sum :=
      count_le_sum_length (mem_breakFrags_ne_nil w word)
    have hsplit : ((breakFrags w word).map (fun f => strWidth f + 1)).sum =
        ((breakFrags w word).map strWidth).sum + (breakFrags w word).length := by
      induction breakFrags w word with
      | nil => simp
      | cons a as ih2 =>
        simp only [List.map_cons, List.sum_cons, List.length_cons] at ih2 ⊢
        omega
    omega

theorem greedyAux_ne_nil (w : Nat) (ws : List (List Char)) :
    ∀ cur, greedyAux w cur ws ≠ [] := by
  induction ws with
  | nil =>
    intro cur
    simp [greedyAux]
  | cons word ws2 ih =>
    intro cur
    simp only [greedyAux]
    split
    · exact ih (cur ++ ' ' :: word)
    · simp

theorem greedyWrap_ne_nil (w : Nat) (words : List (List Char)) :
    greedyWrap w words ≠ [] := by
  unfold greedyWrap
  cases words with
  | nil => simp
  | cons word ws => exact greedyAux_ne_nil w ws word

theorem greedyAux_sum_width (w : Nat) (ws : List (List Char)) :
    ∀ cur, ((greedyAux w cur ws).map strWidth).sum ≤
      strWidth cur + ((ws.map (fun x => strWidth x + 1)).sum) := by
  induction ws with
  | nil =>
    intro cur
    simp [greedyAux]
  | cons word ws2 ih =>
    intro cur
    simp only [greedyAux]
    split
    · have h2 := ih (cur ++ ' ' :: word)
      rw [strWidth_append, strWidth_cons] at h2
      have hsp : charWidth ' ' = 1 := rfl
      simp only [List.map_cons, List.sum_cons]
      omega
    · have h2 := ih word
      simp only [List.map_cons, List.sum_cons]
      omega

theorem greedyAux_subset (w : Nat) (ws : List (List Char)) :
    ∀ cur, ∀ l ∈ greedyAux w cur ws, ∀ c ∈ l,
      c ∈ cur ∨ c = ' ' ∨ ∃ wd ∈ ws, c ∈ wd := by
  induction ws with
  | nil =>
    intro cur l hl c hc
    simp only [greedyAux, List.mem_singleton] at hl
    subst hl
    exact Or.inl hc
  | cons word ws2 ih =>
    intro cur l hl c hc
    simp only [greedyAux] at hl
    split at hl
    · rcases ih (cur ++ ' ' :: word) l hl c hc with h | h | ⟨wd, hwd, hcwd⟩
      · rcases List.mem_append.mp h with h2 | h2
        · exact Or.inl h2
        · rcases List.mem_cons.mp h2 with h3 | h3
          · exact Or.inr (Or.inl h3)
          · exact Or.inr (Or.inr ⟨word, List.mem_cons_self word ws2, h3⟩)
      · exact Or.inr (Or.inl h)
      · exact Or.inr (Or.inr ⟨wd, List.mem_cons_of_mem word hwd, hcwd⟩)
    · rcases List.mem_cons.mp hl with h2 | h2
      · subst h2
        exact Or.inl hc
      · rcases ih word l h2 c hc with h | h | ⟨wd, hwd, hcwd⟩
        · exact Or.inr (Or.inr ⟨word, List.mem_cons_self word ws2, h⟩)
        · exact Or.inr (Or.inl h)
        · exact Or.inr (Or.inr ⟨wd, List.mem_cons_of_mem word hwd, hcwd⟩)

theorem greedyAux_of_chain (w : Nat) (fs : List (List Char)) :
    ∀ f, List.Chain' (fun a b => w < strWidth a + strWidth b) (f :: fs) →
      greedyAux w f fs = f :: fs := by
  induction fs with
  | nil =>
    intro f _
    rfl
  | cons g gs ih =>
    intro f hch
    rw [List.chain'_cons] at hch
    simp only [greedyAux]
    rw [if_neg (by omega)]
    rw [ih g hch.2]

theorem joinNl_nil : joinNl [] = [] := rfl

theorem joinNl_single (l : List Char) : joinNl [l] = l := rfl

theorem joinNl_cons2 (l l2 : List Char) (ls : List (List Char)) :
    joinNl (l :: l2 :: ls) = l ++ '\n' :: joinNl (l2 :: ls) := rfl

theorem joinNl_append {xs : List (List Char)} (ys : List (List Char))
    (hx : xs ≠ []) (hy : ys ≠ []) :
    joinNl (xs ++ ys) = joinNl xs ++ '\n' :: joinNl ys := by
  induction xs with
  | nil => exact absurd rfl hx
  | cons l ls ih =>
    cases ls with
    | nil =>
      cases ys with
      | nil => exact absurd rfl hy
      | cons y ys2 =>
        rw [List.singleton_append, joinNl_cons2, joinNl_single]
    | cons l2 ls2 =>
      rw [List.cons_append, List.cons_append, joinNl_cons2, ← List.cons_append,
        ih (by simp), joinNl_cons2]
      simp

theorem joinNl_map_joinNl (xss : List (List (List Char))) (h : ∀ b ∈ xss, b ≠ []) :
    joinNl (xss.map joinNl) = joinNl xss.flatten := by
  induction xss with
  | nil => rfl
  | cons b bs ih =>
    cases bs with
    | nil =>
      simp [joinNl_single]
    | cons b2 bs2 =>
      have hb : b ≠ [] := h b (List.mem_cons_self b (b2 :: bs2))
      have hflat : (b2 :: bs2).flatten ≠ [] := by
        have hb2 : b2 ≠ [] := h b2 (List.mem_cons_of_mem b (List.mem_cons_self b2 bs2))
        simp only [List.flatten_cons]
        intro hcon
        exact hb2 (List.append_eq_nil.mp hcon).1
      have hih := ih (fun p hp => h p (List.mem_cons_of_mem b hp))
      calc joinNl ((b :: b2 :: bs2).map joinNl)
          = joinNl b ++ '\n' :: joinNl ((b2 :: bs2).map joinNl) :=
            joinNl_cons2 (joinNl b) (joinNl b2) (bs2.map joinNl)
        _ = joinNl b ++ '\n' :: joinNl ((b2 :: bs2).flatten) := by rw [hih]
        _ = joinNl (b ++ (b2 :: bs2).flatten) :=
            (joinNl_append (b2 :: bs2).flatten hb hflat).symm
        _ = joinNl ((b :: b2 :: bs2).flatten) := by simp

theorem charWidth_nl : charWidth '\n' = 0 := rfl

theorem strWidth_joinNl (ls : List (List Char)) :
    strWidth (joinNl ls) = (ls.map strWidth).sum := by
  induction ls with
  | nil => rfl
  | cons l ls2 ih =>
    cases ls2 with
    | nil => simp [joinNl_single]
    | cons l2 ls3 =>
      rw [joinNl_cons2, strWidth_append, strWidth_cons, charWidth_nl, ih]
      simp only [List.map_cons, List.sum_cons]
      omega

theorem splitOnChar_joinNl (ls : List (List Char)) (hne : ls ≠ [])
    (h : ∀ p ∈ ls, '\n' ∉ p) :
    splitOnChar '\n' (joinNl ls) = ls := by
  induction ls with
  | nil => exact absurd rfl hne
  | cons l ls2 ih =>
    cases ls2 with
    | nil =>
      rw [joinNl_single, splitOnChar_of_not_mem (h l (List.mem_cons_self l []))]
    | cons l2 ls3 =>
      rw [joinNl_cons2,
        splitOnChar_append_cons (h l (List.mem_cons_self l (l2 :: ls3))),
        ih (by simp) (fun p hp => h p (List.mem_cons_of_mem l hp))]

theorem stripCR1_width_le (l : List Char) : strWidth (stripCR1 l) ≤ strWidth l := by
  unfold stripCR1
  split
  · exact nat_sublist_sum_le ((List.dropLast_sublist l).map charWidth)
  · exact le_refl _

theorem mem_rustLinesAux (ps : List (List Char)) :
    ∀ l ∈ rustLinesAux ps, ∃ p ∈ ps, l = stripCR1 p ∨ l = p := by
  induction ps with
  | nil =>
    intro l hl
    simp [rustLinesAux] at hl
  | cons p qs ih =>
    intro l hl
    cases qs with
    | nil =>
      simp only [rustLinesAux] at hl
      split at hl
      · simp at hl
      · rw [List.mem_singleton] at hl
        exact ⟨p, List.mem_cons_self p [], Or.inr hl⟩
    | cons q qs2 =>
      simp only [rustLinesAux] at hl
      rcases List.mem_cons.mp hl with h2 | h2
      · exact ⟨p, List.mem_cons_self p (q :: qs2), Or.inl h2⟩
      · rcases ih l h2 with ⟨r, hr, hlr⟩
        exact ⟨r, List.mem_cons_of_mem p hr, hlr⟩

theorem rustLinesAux_id (ps : List (List Char))
    (h : ∀ p ∈ ps, p ≠ [] ∧ stripCR1 p = p) :
    rustLinesAux ps = ps := by
  induction ps with
  | nil => rfl
  | cons p qs ih =>
    cases qs with
    | nil =>
      obtain ⟨hp, _⟩ := h p (List.mem_cons_self p [])
      simp only [rustLinesAux]
      rw [if_neg (by simpa using hp)]
    | cons q qs2 =>
      obtain ⟨_, hp2⟩ := h p (List.mem_cons_self p (q :: qs2))
      simp only [rustLinesAux]
      rw [hp2, ih (fun r hr => h r (List.mem_cons_of_mem p hr))]

theorem le_longest_line (lines : List (List Char)) :
    ∀ l ∈ lines, strWidth l ≤ longest_line lines := by
  induction lines with
  | nil =>
    intro l hl
    simp at hl
  | cons a as ih =>
    intro l hl
    simp only [longest_line, List.map_cons, List.foldr_cons]
    rcases List.mem_cons.mp hl with h2 | h2
    · subst h2
      exact Nat.le_max_left _ _
    · exact le_trans (ih l h2) (Nat.le_max_right _ _)

theorem longest_line_cases (lines : List (List Char)) :
    longest_line lines = 0 ∨ ∃ l ∈ lines, strWidth l = longest_line lines := by
  induction lines with
  | nil => exact Or.inl rfl
  | cons a as ih =>
    simp only [longest_line, List.map_cons, List.foldr_cons]
    rcases Nat.le_total (strWidth a) ((as.map strWidth).foldr max 0) with h | h
    · rcases ih with h2 | ⟨l, hl, hwl⟩
      · left
        simp only [longest_line] at h2
        rw [Nat.max_eq_right h, h2]
      · right
        refine ⟨l, List.mem_cons_of_mem a hl, ?_⟩
        simp only [longest_line] at hwl
        rw [Nat.max_eq_right h, hwl]
    · right
      exact ⟨a, List.mem_cons_self a as, (Nat.max_eq_left h).symm⟩

theorem longest_line_le (lines : List (List Char)) (B : Nat)
    (h : ∀ l ∈ lines, strWidth l ≤ B) : longest_line lines ≤ B := by
  rcases longest_line_cases lines with h2 | ⟨l, hl, hwl⟩
  · omega
  · rw [← hwl]
    exact h l hl

theorem mem_splitOnChar_subset (sep : Char) (s : List Char) :
    ∀ p ∈ splitOnChar sep s, ∀ c ∈ p, c ∈ s := by
  induction s with
  | nil =>
    intro p hp c hc
    simp only [splitOnChar, List.mem_singleton] at hp
    subst hp
    simp at hc
  | cons a as ih =>
    intro p hp c hc
    by_cases h : a = sep
    · rw [splitOnChar_cons_sep h] at hp
      rcases List.mem_cons.mp hp with h2 | h2
      · subst h2
        simp at hc
      · exact List.mem_cons_of_mem a (ih p h2 c hc)
    · rw [splitOnChar_cons_ne h] at hp
      cases hsp : splitOnChar sep as with
      | nil => exact absurd hsp (splitOnChar_ne_nil sep as)
      | cons q qs =>
        rw [hsp] at hp
        simp only [consHead] at hp
        rcases List.mem_cons.mp hp with h2 | h2
        · subst h2
          rcases List.mem_cons.mp hc with h3 | h3
          · subst h3
            exact List.mem_cons_self c as
          · exact List.mem_cons_of_mem a
              (ih q (hsp ▸ List.mem_cons_self q qs) c h3)
        · exact List.mem_cons_of_mem a
            (ih p (hsp ▸ List.mem_cons_of_mem q h2) c hc)

theorem mem_splitOnChar_length_le (sep : Char) (s : List Char) :
    ∀ p ∈ splitOnChar sep s, p.length ≤ s.length := by
  intro p hp
  exact le_trans (nat_mem_le_sum (List.mem_map_of_mem List.length hp))
    (splitOnChar_sum_length sep s)

theorem sum_map_add (l : List (List Char)) (f g : List Char → Nat) :
    (l.map (fun x => f x + g x)).sum = (l.map f).sum + (l.map g).sum := by
  induction l with
  | nil => simp
  | cons a as ih =>
    simp only [List.map_cons, List.sum_cons, ih]
    omega

theorem wrapWords_chars (w : Nat) (part : List Char) :
    ∀ word ∈ ((splitWords part).map (breakWord w)).flatten, ∀ c ∈ word, c ∈ part := by
  intro word hword c hc
  rcases List.mem_flatten.mp hword with ⟨blk, hblk, hwblk⟩
  rcases List.mem_map.mp hblk with ⟨wd, hwd, hbw⟩
  subst hbw
  have h1 : c ∈ wd := mem_breakWord_subset w wd word hwblk c hc
  exact mem_splitOnChar_subset ' ' part wd (List.mem_of_mem_filter hwd) c h1

theorem wrapWords_sumW (w : Nat) (part : List Char) :
    ((((splitWords part).map (breakWord w)).flatten).map (fun f => strWidth f + 1)).sum ≤
      strWidth part + part.length := by
  have h1 : ((((splitWords part).map (breakWord w)).flatten).map
      (fun f => strWidth f + 1)).sum =
      ((splitWords part).map
        (fun wd => ((breakWord w wd).map (fun f => strWidth f + 1)).sum)).sum := by
    rw [List.map_flatten, List.sum_flatten, List.map_map, List.map_map]
    rfl
  rw [h1]
  have h2 : ((splitWords part).map
      (fun wd => ((breakWord w wd).map (fun f => strWidth f + 1)).sum)).sum ≤
      ((splitWords part).map (fun wd => strWidth wd + wd.length)).sum := by
    apply List.sum_le_sum
    intro wd hwd
    exact breakWord_sumW w (mem_splitWords_ne_nil part wd hwd)
  have h3 : ((splitWords part).map (fun wd => strWidth wd + wd.length)).sum =
      ((splitWords part).map strWidth).sum + ((splitWords part).map List.length).sum :=
    sum_map_add _ _ _
  have h4 := splitWords_sum_width part
  have h5 := splitWords_sum_length part
  omega

theorem mem_wrapLine_width_le (w : Nat) (part : List Char) :
    ∀ l ∈ wrapLine w part, strWidth l ≤ strWidth part + part.length := by
  intro l hl
  unfold wrapLine greedyWrap at hl
  cases hws : ((splitWords part).map (breakWord w)).flatten with
  | nil =>
    rw [hws] at hl
    simp only [List.mem_singleton] at hl
    subst hl
    simp [strWidth]
  | cons word ws2 =>
    rw [hws] at hl
    have h1 : strWidth l ≤ ((greedyAux w word ws2).map strWidth).sum :=
      nat_mem_le_sum (List.mem_map_of_mem strWidth hl)
    have h2 := greedyAux_sum_width w ws2 word
    have h3 := wrapWords_sumW w part
    rw [hws] at h3
    simp only [List.map_cons, List.sum_cons] at h3
    omega

theorem wrapLine_ne_nil (w : Nat) (part : List Char) : wrapLine w part ≠ [] :=
  greedyWrap_ne_nil w _

theorem wrapLine_no_nl (w : Nat) (part : List Char) (hpart : '\n' ∉ part) :
    ∀ l ∈ wrapLine w part, '\n' ∉ l := by
  intro l hl hnl
  unfold wrapLine greedyWrap at hl
  cases hws : ((splitWords part).map (breakWord w)).flatten with
  | nil =>
    rw [hws] at hl
    simp only [List.mem_singleton] at hl
    subst hl
    simp at hnl
  | cons word ws2 =>
    rw [hws] at hl
    rcases greedyAux_subset w ws2 word l hl '\n' hnl with h | h | ⟨wd, hwd, hcwd⟩
    · exact hpart (wrapWords_chars w part word (hws ▸ List.mem_cons_self word ws2) '\n' h)
    · simp at h
    · exact hpart (wrapWords_chars w part wd (hws ▸ List.mem_cons_of_mem word hwd) '\n' hcwd)

theorem fill_eq_joinNl (m : List Char) (w : Nat) :
    fill m w = joinNl (((splitOnChar '\n' m).map (wrapLine w)).flatten) := by
  unfold fill
  rw [show (splitOnChar '\n' m).map (fun line => joinNl (wrapLine w line)) =
      ((splitOnChar '\n' m).map (wrapLine w)).map joinNl from by
    rw [List.map_map]
    rfl]
  apply joinNl_map_joinNl
  intro b hb
  rcases List.mem_map.mp hb with ⟨part, _, hpb⟩
  rw [← hpb]
  exact wrapLine_ne_nil w part

theorem sayLines_eq_rustLinesAux (input : List Char) (w : Nat) :
    sayLines input w =
      rustLinesAux (((splitOnChar '\n' (merge_white_spaces input)).map (wrapLine w)).flatten) := by
  unfold sayLines rustLines
  rw [fill_eq_joinNl]
  congr 1
  apply splitOnChar_joinNl
  · cases hparts : splitOnChar '\n' (merge_white_spaces input) with
    | nil => exact absurd hparts (splitOnChar_ne_nil _ _)
    | cons p ps =>
      simp only [List.map_cons, List.flatten_cons]
      intro hcon
      exact wrapLine_ne_nil w p (List.append_eq_nil.mp hcon).1
  · intro x hx
    rcases List.mem_flatten.mp hx with ⟨blk, hblk, hxblk⟩
    rcases List.mem_map.mp hblk with ⟨part, hpart, hpb⟩
    subst hpb
    exact wrapLine_no_nl w part (mem_splitOnChar_not_sep '\n' _ part hpart) x hxblk

theorem sayLines_decomp (input : List Char) (w : Nat) :
    ∀ l ∈ sayLines input w, ∃ part ∈ splitOnChar '\n' (merge_white_spaces input),
      ∃ wl ∈ wrapLine w part, (l = stripCR1 wl ∨ l = wl) := by
  intro l hl
  rw [sayLines_eq_rustLinesAux] at hl
  rcases mem_rustLinesAux _ l hl with ⟨wl, hwl, hcase⟩
  rcases List.mem_flatten.mp hwl with ⟨blk, hblk, hwlblk⟩
  rcases List.mem_map.mp hblk with ⟨part, hpart, hpb⟩
  subst hpb
  exact ⟨part, hpart, wl, hwlblk, hcase⟩

theorem mem_sayLines_width_le (input : List Char) (w : Nat) :
    ∀ l ∈ sayLines input w, strWidth l ≤ 3 * input.length := by
  intro l hl
  rcases sayLines_decomp input w l hl with ⟨part, hpart, wl, hwl, hcase⟩
  have h1 : strWidth l ≤ strWidth wl := by
    rcases hcase with h | h
    · rw [h]
      exact stripCR1_width_le wl
    · rw [h]
  have h2 := mem_wrapLine_width_le w part wl hwl
  have h3 := mem_splitOnChar_width_le '\n' (merge_white_spaces input) part hpart
  have h4 := mem_splitOnChar_length_le '\n' (merge_white_spaces input) part hpart
  have h5 := strWidth_le_two_mul_length (merge_white_spaces input)
  have h6 := mergeAux_length_le input false
  have h7 := strWidth_le_two_mul_length part
  unfold merge_white_spaces at h3 h4 h5
  omega

theorem sayWidth_le (input : List Char) (w : Nat) :
    longest_line (sayLines input w) ≤ 3 * input.length :=
  longest_line_le _ _ (mem_sayLines_width_le input w)

theorem bodyRows_length (lines : List (List Char)) :
    (bodyRows lines).length = lines.length := by
  unfold bodyRows
  rw [List.length_map, List.enum_length]

theorem bodyRows_getD (lines : List (List Char)) (i : Nat) (h : i < lines.length) :
    (bodyRows lines).getD i [] =
      renderRow lines.length (longest_line lines) i (lines.getD i []) := by
  unfold bodyRows
  rw [List.getD_eq_getElem?_getD, List.getElem?_map, List.getElem?_enum,
    List.getElem?_eq_getElem h, List.getD_eq_getElem?_getD, List.getElem?_eq_getElem h]
  rfl

theorem mem_of_getLast?_eq {l : List Char} {a : Char} (h : l.getLast? = some a) : a ∈ l := by
  rcases List.mem_getLast?_eq_getLast (show a ∈ l.getLast? from h) with ⟨hl, he⟩
  rw [he]
  exact List.getLast_mem hl

theorem getD_mem_of_lt {l : List (List Char)} {i : Nat} (h : i < l.length) :
    l.getD i [] ∈ l := by
  rw [List.getD_eq_getElem?_getD, List.getElem?_eq_getElem h]
  exact List.getElem_mem h

theorem merge_id_of_no_ws {s : List Char} (h : ∀ c ∈ s, isHorizWhitespace c = false) :
    merge_white_spaces s = s := by
  unfold merge_white_spaces
  induction s with
  | nil => rw [mergeAux_nil]
  | cons a as ih =>
    rw [mergeAux_cons_not_ws (h a (List.mem_cons_self a as)),
      ih (fun c hc => h c (List.mem_cons_of_mem a hc))]

theorem breakFrags_ne_nil (w : Nat) {word : List Char} (h : word ≠ []) :
    breakFrags w word ≠ [] := by
  cases word with
  | nil => exact absurd rfl h
  | cons c cs =>
    rw [breakFrags_cons]
    simp

theorem stripCR1_of_no_cr {l : List Char} (h : '\r' ∉ l) : stripCR1 l = l := by
  unfold stripCR1
  split
  · rename_i h2
    exact absurd (mem_of_getLast?_eq h2) h
  · rfl

theorem enumFrom_snd_mem {α : Type} (l : List α) :
    ∀ (k : Nat) (p : Nat × α), p ∈ l.enumFrom k → p.2 ∈ l := by
  induction l with
  | nil =>
    intro k p hp
    simp [List.enumFrom] at hp
  | cons a as ih =>
    intro k p hp
    simp only [List.enumFrom] at hp
    rcases List.mem_cons.mp hp with h2 | h2
    · subst h2
      exact List.mem_cons_self a as
    · exact List.mem_cons_of_mem a (ih (k + 1) p h2)

theorem enum_snd_mem {α : Type} (l : List α) (p : Nat × α) (hp : p ∈ l.enum) : p.2 ∈ l :=
  enumFrom_snd_mem l 0 p hp

theorem strWidth_leftToken (n i : Nat) : strWidth (leftToken n i) = 2 := by
  unfold leftToken
  repeat' split
  all_goals decide

theorem strWidth_rightToken (n i : Nat) : strWidth (rightToken n i) = 2 := by
  unfold rightToken
  repeat' split
  all_goals decide

theorem strWidth_replicate_space (k : Nat) : strWidth (List.replicate k ' ') = k := by
  unfold strWidth
  rw [List.map_replicate, List.sum_replicate]
  simp [charWidth]

theorem rowsChecked_eq (n aw : Nat) (eps : List (Nat × List Char))
    (h : ∀ p ∈ eps, strWidth p.2 ≤ aw) :
    rowsChecked n aw eps = some (eps.map (fun p => renderRow n aw p.1 p.2)) := by
  induction eps with
  | nil => rfl
  | cons p ps ih =>
    have hp : strWidth p.2 ≤ aw := h p (List.mem_cons_self p ps)
    have hrow : renderRowChecked n aw p.1 p.2 = some (renderRow n aw p.1 p.2) := by
      unfold renderRowChecked checkedPad renderRow
      rw [if_pos hp]
      rfl
    simp only [rowsChecked, hrow, ih (fun q hq => h q (List.mem_cons_of_mem p hq)),
      Option.bind_eq_bind, Option.some_bind, List.map_cons]
    rfl

/-- C1: for every input text and max_width, the rendered output is the top
border (exactly one space, `actual_width + 2` underscores, a line break),
then the body rows, then the bottom border (exactly one space and
`actual_width + 2` dashes with no trailing line break of its own), after
which the mascot constant — which begins with its own line break — is
appended verbatim; `actual_width` is the maximum display width over the
wrapped lines (0 if there are none). -/
theorem claim_C1_borders (input : List Char) (w : Nat) :
    say input w =
      (' ' :: (List.replicate (longest_line (sayLines input w) + 2) '_' ++ ['\n'])) ++
        (bodyRows (sayLines input w)).flatten ++
        (' ' :: List.replicate (longest_line (sayLines input w) + 2) '-') ++ MASCOT ∧
    '\n' ∉ (' ' :: List.replicate (longest_line (sayLines input w) + 2) '-') ∧
    MASCOT.head? = some '\n' ∧
    (∀ l ∈ sayLines input w, strWidth l ≤ longest_line (sayLines input w)) ∧
    (longest_line (sayLines input w) = 0 ∨
      ∃ l ∈ sayLines input w, strWidth l = longest_line (sayLines input w)) ∧
    (sayLines input w = [] → longest_line (sayLines input w) = 0) := by
  refine ⟨rfl, ?_, rfl, le_longest_line _, longest_line_cases _, ?_⟩
  · intro hmem
    rcases List.mem_cons.mp hmem with h2 | h2
    · simp at h2
    · have := List.eq_of_mem_replicate h2
      simp at this
  · intro hnil
    rw [hnil]
    rfl

/-- Witness for C1 at the concrete input "hi", max_width 24. -/
theorem claim_C1_borders_witness :
    strWidth ['h', 'i'] ≤ longest_line (sayLines ['h', 'i'] 24) ∧
    say ['h', 'i'] 24 =
      (' ' :: (List.replicate (longest_line (sayLines ['h', 'i'] 24) + 2) '_' ++ ['\n'])) ++
        (bodyRows (sayLines ['h', 'i'] 24)).flatten ++
        (' ' :: List.replicate (longest_line (sayLines ['h', 'i'] 24) + 2) '-') ++ MASCOT :=
  ⟨(claim_C1_borders ['h', 'i'] 24).2.2.2.1 ['h', 'i'] (by decide),
   (claim_C1_borders ['h', 'i'] 24).1⟩

/-- C10: every wrapped line's display width is at most `actual_width` as
computed by `longest_line`, so each body row's padding count
`actual_width - display_width(line)` is well defined (the subtraction does
not truncate) and the padding loop cannot underflow. -/
theorem claim_C10_width_invariant (input : List Char) (w : Nat) :
    ∀ l ∈ sayLines input w,
      strWidth l ≤ longest_line (sayLines input w) ∧
      strWidth l + (longest_line (sayLines input w) - strWidth l) =
        longest_line (sayLines input w) := by
  intro l hl
  have h := le_longest_line (sayLines input w) l hl
  exact ⟨h, by omega⟩

/-- Witness for C10 at the concrete input "hi", max_width 24. -/
theorem claim_C10_width_invariant_witness :
    strWidth ['h', 'i'] ≤ longest_line (sayLines ['h', 'i'] 24) ∧
    strWidth ['h', 'i'] + (longest_line (sayLines ['h', 'i'] 24) - strWidth ['h', 'i']) =
      longest_line (sayLines ['h', 'i'] 24) :=
  claim_C10_width_invariant ['h', 'i'] 24 ['h', 'i'] (by decide)

/-- C2: when the wrapped result has exactly one line, the single body row
uses the tokens "< " and " >"; when it has two or more lines, the first row
uses "/ " and " \", the last row uses "\ " and " /", every middle row uses
"| " and " |", and no row's tokens contain a "<" or ">"; every body row is
built from these tokens around the line text. -/
theorem claim_C2_tokens (input : List Char) (w : Nat) :
    ((sayLines input w).length = 1 →
      leftToken (sayLines input w).length 0 = ['<', ' '] ∧
      rightToken (sayLines input w).length 0 = [' ', '>']) ∧
    (2 ≤ (sayLines input w).length →
      (leftToken (sayLines input w).length 0 = ['/', ' '] ∧
        rightToken (sayLines input w).length 0 = [' ', '\\']) ∧
      (leftToken (sayLines input w).length ((sayLines input w).length - 1) = ['\\', ' '] ∧
        rightToken (sayLines input w).length ((sayLines input w).length - 1) = [' ', '/']) ∧
      (∀ i, 0 < i → i < (sayLines input w).length - 1 →
        leftToken (sayLines input w).length i = ['|', ' '] ∧
        rightToken (sayLines input w).length i = [' ', '|']) ∧
      (∀ i, i < (sayLines input w).length →
        '<' ∉ leftToken (sayLines input w).length i ∧
        '>' ∉ rightToken (sayLines input w).length i)) ∧
    (∀ i, i < (sayLines input w).length →
      (bodyRows (sayLines input w)).getD i [] =
        leftToken (sayLines input w).length i ++ (sayLines input w).getD i [] ++
          List.replicate (longest_line (sayLines input w) -
            strWidth ((sayLines input w).getD i [])) ' ' ++
          rightToken (sayLines input w).length i ++ ['\n']) := by
  refine ⟨?_, ?_, ?_⟩
  · intro h1
    rw [h1]
    exact ⟨rfl, rfl⟩
  · intro h2
    have hne1 : (sayLines input w).length ≠ 1 := by omega
    refine ⟨⟨?_, ?_⟩, ⟨?_, ?_⟩, ?_, ?_⟩
    · unfold leftToken
      rw [if_neg hne1, if_pos rfl]
    · unfold rightToken
      rw [if_neg hne1, if_pos rfl]
    · unfold leftToken
      rw [if_neg hne1, if_neg (by omega), if_pos rfl]
    · unfold rightToken
      rw [if_neg hne1, if_neg (by omega), if_pos rfl]
    · intro i hi0 hilast
      constructor
      · unfold leftToken
        rw [if_neg hne1, if_neg (by omega), if_neg (by omega)]
      · unfold rightToken
        rw [if_neg hne1, if_neg (by omega), if_neg (by omega)]
    · intro i _
      constructor
      · unfold leftToken
        rw [if_neg hne1]
        split
        · decide
        · split
          · decide
          · decide
      · unfold rightToken
        rw [if_neg hne1]
        split
        · decide
        · split
          · decide
          · decide
  · intro i hi
    rw [bodyRows_getD _ i hi]
    rfl

/-- Witness for C2 at a one-line input ("hi", width 24) and a two-line input
("ab cd", width 2). -/
theorem claim_C2_tokens_witness :
    leftToken (sayLines ['h', 'i'] 24).length 0 = ['<', ' '] ∧
    leftToken (sayLines ['a', 'b', ' ', 'c', 'd'] 2).length
      ((sayLines ['a', 'b', ' ', 'c', 'd'] 2).length - 1) = ['\\', ' '] :=
  ⟨((claim_C2_tokens ['h', 'i'] 24).1 (by decide)).1,
   ((claim_C2_tokens ['a', 'b', ' ', 'c', 'd'] 2).2.1 (by decide)).2.1.1⟩

/-- C3: for max_width ≥ 1, every body row is padded with exactly
`actual_width - display_width(line)` spaces between the line text and the
right token, where the display width counts terminal columns (ordinary
characters 1, wide characters 2, combining marks 0); consequently the right
token of every row starts at the same column offset `2 + actual_width` from
the left margin. -/
theorem claim_C3_alignment (input : List Char) (w : Nat) (hw : 1 ≤ w) (i : Nat)
    (hi : i < (sayLines input w).length) :
    (bodyRows (sayLines input w)).getD i [] =
      leftToken (sayLines input w).length i ++ (sayLines input w).getD i [] ++
        List.replicate (longest_line (sayLines input w) -
          strWidth ((sayLines input w).getD i [])) ' ' ++
        rightToken (sayLines input w).length i ++ ['\n'] ∧
    strWidth ((sayLines input w).getD i []) +
      (longest_line (sayLines input w) - strWidth ((sayLines input w).getD i [])) =
      longest_line (sayLines input w) ∧
    strWidth (leftToken (sayLines input w).length i ++ (sayLines input w).getD i [] ++
        List.replicate (longest_line (sayLines input w) -
          strWidth ((sayLines input w).getD i [])) ' ') =
      2 + longest_line (sayLines input w) ∧
    charWidth 'x' = 1 ∧ charWidth (Char.ofNat 0x4e2d) = 2 ∧
    charWidth (Char.ofNat 0x0301) = 0 := by
  have hmem : (sayLines input w).getD i [] ∈ sayLines input w := getD_mem_of_lt hi
  have hle := le_longest_line (sayLines input w) _ hmem
  refine ⟨?_, by omega, ?_, by decide, by decide, by decide⟩
  · rw [bodyRows_getD _ i hi]
    rfl
  · rw [strWidth_append, strWidth_append, strWidth_leftToken, strWidth_replicate_space]
    omega

/-- Witness for C3 at the concrete input "hi", max_width 24, row 0. -/
theorem claim_C3_alignment_witness :
    (1 ≤ 24 ∧ 0 < (sayLines ['h', 'i'] 24).length) ∧
    strWidth ((sayLines ['h', 'i'] 24).getD 0 []) +
      (longest_line (sayLines ['h', 'i'] 24) -
        strWidth ((sayLines ['h', 'i'] 24).getD 0 [])) =
      longest_line (sayLines ['h', 'i'] 24) :=
  ⟨⟨by decide, by decide⟩,
   (claim_C3_alignment ['h', 'i'] 24 (by decide) 0 (by decide)).2.1⟩

/-- C4: the whitespace normalizer equals the spec-side transform that
replaces every maximal run of horizontal whitespace (whitespace that is not
LF or CR) with one ASCII space; LF and CR are passed through untouched
(their counts are preserved), and in particular any occurrence of
"a\n\nb" in the input survives in the output with the two newlines neither
merged nor converted. -/
theorem claim_C4_normalizer (s : List Char) :
    merge_white_spaces s = collapseRunsSpec s ∧
    (merge_white_spaces s).count '\n' = s.count '\n' ∧
    (merge_white_spaces s).count '\r' = s.count '\r' ∧
    (∀ u v : List Char, s = u ++ 'a' :: '\n' :: '\n' :: 'b' :: v →
      ∃ u2 v2 : List Char,
        merge_white_spaces s = u2 ++ 'a' :: '\n' :: '\n' :: 'b' :: v2) := by
  refine ⟨merge_eq_collapseRunsSpec s, ?_, ?_, ?_⟩
  · exact mergeAux_count '\n' (by decide) (by decide) s false
  · exact mergeAux_count '\r' (by decide) (by decide) s false
  · intro u v hs
    refine ⟨mergeAux false u, mergeAux false v, ?_⟩
    unfold merge_white_spaces
    rw [hs, mergeAux_append u false ('a' :: '\n' :: '\n' :: 'b' :: v),
      mergeAux_cons_not_ws (by decide), mergeAux_cons_not_ws (by decide),
      mergeAux_cons_not_ws (by decide), mergeAux_cons_not_ws (by decide)]

/-- Witness for C4 at the concrete input "x  a\n\nb y". -/
theorem claim_C4_normalizer_witness :
    ∃ u2 v2 : List Char,
      merge_white_spaces
          ['x', ' ', ' ', 'a', '\n', '\n', 'b', ' ', 'y'] =
        u2 ++ 'a' :: '\n' :: '\n' :: 'b' :: v2 :=
  (claim_C4_normalizer ['x', ' ', ' ', 'a', '\n', '\n', 'b', ' ', 'y']).2.2.2
    ['x', ' ', ' '] [' ', 'y'] (by decide)

/-- C7: the whitespace normalizer is idempotent — applying it to its own
output returns that output unchanged. -/
theorem claim_C7_idempotent (s : List Char) :
    merge_white_spaces (merge_white_spaces s) = merge_white_spaces s := by
  unfold merge_white_spaces
  exact mergeAux_id_of_normal _ (mergeAux_ws_is_space s false) (mergeAux_no_adjacent_ws s false)

/-- C5 counterexample: for the empty input (max_width 24) the wrapped line
list is empty, so the rendered box contains ZERO body rows — not the one
empty "< >" row the claim asserts. -/
theorem claim_C5_counterexample :
    sayLines [] 24 = [] ∧
    (bodyRows (sayLines [] 24)).length = 0 ∧
    (bodyRows (sayLines [] 24)).length ≠ 1 ∧
    say [] 24 = topBorder 0 ++ bottomBorder 0 ++ MASCOT := by
  refine ⟨rfl, rfl, by decide, rfl⟩

/-- C5 amended: for the empty input and any max_width, the rendered output
is a box with actual_width 0 and NO body rows: the top border is followed
directly by the bottom border and the mascot. -/
theorem claim_C5_amended (w : Nat) :
    sayLines [] w = [] ∧
    longest_line (sayLines [] w) = 0 ∧
    bodyRows (sayLines [] w) = [] ∧
    say [] w = topBorder 0 ++ bottomBorder 0 ++ MASCOT :=
  ⟨rfl, rfl, rfl, rfl⟩

/-- C6 counterexample: the single word "aaaa" (display width 4) with
max_width 2 is NOT placed on its own line unsplit — the wrapper breaks it
into the two lines "aa" and "aa" (textwrap's default break_words
behaviour), and no wrapped line exceeds max_width here. -/
theorem claim_C6_counterexample :
    2 < strWidth ['a', 'a', 'a', 'a'] ∧
    sayLines ['a', 'a', 'a', 'a'] 2 = [['a', 'a'], ['a', 'a']] ∧
    ['a', 'a', 'a', 'a'] ∉ sayLines ['a', 'a', 'a', 'a'] 2 := by
  decide

theorem alnum_charWidth {c : Char}
    (h : (0x30 ≤ c.toNat ∧ c.toNat ≤ 0x39) ∨ (0x41 ≤ c.toNat ∧ c.toNat ≤ 0x5a) ∨
      (0x61 ≤ c.toNat ∧ c.toNat ≤ 0x7a)) : charWidth c = 1 := by
  simp only [charWidth]
  repeat' split
  all_goals omega

theorem alnum_not_wsU {c : Char}
    (h : (0x30 ≤ c.toNat ∧ c.toNat ≤ 0x39) ∨ (0x41 ≤ c.toNat ∧ c.toNat ≤ 0x5a) ∨
      (0x61 ≤ c.toNat ∧ c.toNat ≤ 0x7a)) : isWhitespaceU c = false := by
  simp only [isWhitespaceU, Bool.or_eq_false_iff, Bool.and_eq_false_iff,
    decide_eq_false_iff_not]
  omega

/-- C6 amended: for a nonempty single word of ASCII letters and digits —
where each character has display width 1, the word contains no whitespace,
no hyphen, and no internal Unicode line-break opportunity, so textwrap's
hyphen-splitting and Unicode word-separation passes are identities and
`break_apart`'s positive-width guard never fires — whose display width
exceeds max_width ≥ 1, the wrapper does NOT place the word unsplit on its
own line: it breaks the word at character boundaries into maximal chunks of
display width at most max_width, one chunk per output line (at least two
lines), losing no characters.  Chunk maximality makes any two consecutive
chunks overflow max_width, so this one-chunk-per-line layout is forced
under any width-respecting assembly, first-fit or optimal-fit. -/
theorem claim_C6_amended (word : List Char) (w : Nat)
    (hne : word ≠ []) (hw : 1 ≤ w)
    (halnum : ∀ c ∈ word, (0x30 ≤ c.toNat ∧ c.toNat ≤ 0x39) ∨
      (0x41 ≤ c.toNat ∧ c.toNat ≤ 0x5a) ∨ (0x61 ≤ c.toNat ∧ c.toNat ≤ 0x7a))
    (hwide : w < strWidth word) :
    sayLines word w = breakFrags w word ∧
    (breakFrags w word).flatten = word ∧
    2 ≤ (breakFrags w word).length ∧
    (∀ f ∈ breakFrags w word, strWidth f ≤ w) := by
  have hws : ∀ c ∈ word, isWhitespaceU c = false :=
    fun c hc => alnum_not_wsU (halnum c hc)
  have hnoHoriz : ∀ c ∈ word, isHorizWhitespace c = false := by
    intro c hc
    unfold isHorizWhitespace
    rw [hws c hc]
    rfl
  have hnoNl : '\n' ∉ word := fun hmem => absurd (hws '\n' hmem) (by decide)
  have hnoCr : '\r' ∉ word := fun hmem => absurd (hws '\r' hmem) (by decide)
  have hnoSp : ' ' ∉ word := fun hmem => absurd (hws ' ' hmem) (by decide)
  have hmerge : merge_white_spaces word = word := merge_id_of_no_ws hnoHoriz
  have hfragsne : breakFrags w word ≠ [] := breakFrags_ne_nil w hne
  have hfragsub := mem_breakFrags_subset w word
  have hfragnil := mem_breakFrags_ne_nil w word
  have hwidths : ∀ f ∈ breakFrags w word, strWidth f ≤ w := by
    refine mem_breakFrags_width_le w word ?_
    intro c hc
    have h1 := alnum_charWidth (halnum c hc)
    omega
  have hsw : splitWords word = [word] := splitWords_of_no_space hnoSp hne
  have hbw : breakWord w word = breakFrags w word := by
    unfold breakWord
    rw [if_neg (by omega)]
  have hwrap : wrapLine w word = breakFrags w word := by
    unfold wrapLine
    rw [hsw]
    simp only [List.map_cons, List.map_nil, List.flatten_cons, List.flatten_nil,
      List.append_nil, hbw]
    cases hfr : breakFrags w word with
    | nil => exact absurd hfr hfragsne
    | cons f fs =>
      have hch := breakFrags_chain w word
      rw [hfr] at hch
      unfold greedyWrap
      exact greedyAux_of_chain w fs f hch
  have hfill : fill word w = joinNl (breakFrags w word) := by
    unfold fill
    rw [splitOnChar_of_not_mem hnoNl]
    simp only [List.map_cons, List.map_nil]
    rw [joinNl_single, hwrap]
  have hlines : rustLines (joinNl (breakFrags w word)) = breakFrags w word := by
    unfold rustLines
    rw [splitOnChar_joinNl _ hfragsne (fun p hp hmem => hnoNl (hfragsub p hp '\n' hmem))]
    apply rustLinesAux_id
    intro p hp
    exact ⟨hfragnil p hp,
      stripCR1_of_no_cr (fun hmem => hnoCr (hfragsub p hp '\r' hmem))⟩
  have hlen2 : 2 ≤ (breakFrags w word).length := by
    rcases hfr : breakFrags w word with _ | ⟨f, fs⟩
    · exact absurd hfr hfragsne
    · rcases fs with _ | ⟨g, gs⟩
      · exfalso
        have hfl := breakFrags_flatten w word
        rw [hfr] at hfl
        simp only [List.flatten_cons, List.flatten_nil, List.append_nil] at hfl
        have hfw : strWidth f ≤ w := hwidths f (hfr ▸ List.mem_cons_self f [])
        rw [hfl] at hfw
        omega
      · simp
  refine ⟨?_, breakFrags_flatten w word, hlen2, hwidths⟩
  unfold sayLines
  rw [hmerge, hfill, hlines]

/-- Witness for the amended C6 at the word "aaaa" with max_width 2. -/
theorem claim_C6_amended_witness :
    (['a', 'a', 'a', 'a'] : List Char) ≠ [] ∧
    2 < strWidth ['a', 'a', 'a', 'a'] ∧
    sayLines ['a', 'a', 'a', 'a'] 2 = breakFrags 2 ['a', 'a', 'a', 'a'] :=
  ⟨by decide, by decide,
   (claim_C6_amended ['a', 'a', 'a', 'a'] 2 (by decide) (by decide) (by decide)
     (by decide)).1⟩

/-- C8: `say` first assembles the whole output buffer with the total pure
pipeline and then performs a single `write_all`; its result is exactly the
sink's result on that buffer, so it errors iff the sink's write errors, the
sink's error value is returned to the caller unchanged, and with a
non-failing sink the call always succeeds — no internal step can produce an
error. -/
theorem claim_C8_error_propagation {ε : Type} (writeAll : List Char → Except ε Unit)
    (input : List Char) (w : Nat) :
    sayWrite writeAll input w = writeAll (say input w) ∧
    (∀ e : ε, sayWrite writeAll input w = Except.error e ↔
      writeAll (say input w) = Except.error e) ∧
    (sayWrite writeAll input w = Except.ok () ↔ writeAll (say input w) = Except.ok ()) ∧
    @sayWrite ε (fun _ => Except.ok ()) input w = Except.ok () :=
  ⟨rfl, fun _ => Iff.rfl, Iff.rfl, rfl⟩

/-- C9: `say` is panic-free: with the `actual_width + 2` usize additions
checked against overflow and the per-row padding count checked against
underflow, the checked pipeline succeeds on every max_width (including 0)
and every input of any length a Rust string can have, and returns exactly
the total function's output. -/
theorem claim_C9_no_panic (input : List Char) (w : Nat)
    (h : input.length ≤ 2 ^ 61) :
    sayChecked input w = some (say input w) := by
  have hbound := sayWidth_le input w
  have h61 : (2 : Nat) ^ 61 = 2305843009213693952 := by norm_num
  have h64 : (2 : Nat) ^ 64 = 18446744073709551616 := by norm_num
  have hle : longest_line (sayLines input w) + 2 ≤ USIZE_MAX := by
    unfold USIZE_MAX
    omega
  have hadd : checkedAdd (longest_line (sayLines input w)) 2 =
      some (longest_line (sayLines input w) + 2) := by
    unfold checkedAdd
    rw [if_pos hle]
  have hrows : rowsChecked (sayLines input w).length (longest_line (sayLines input w))
      (sayLines input w).enum = some (bodyRows (sayLines input w)) := by
    rw [rowsChecked_eq _ _ _ (fun p hp =>
      le_longest_line (sayLines input w) p.2 (enum_snd_mem (sayLines input w) p hp))]
    rfl
  simp only [sayChecked]
  rw [hadd, hrows]
  rfl

/-- Witness for C9 at the concrete input "hi", max_width 3. -/
theorem claim_C9_no_panic_witness :
    (['h', 'i'] : List Char).length ≤ 2 ^ 61 ∧
    sayChecked ['h', 'i'] 3 = some (say ['h', 'i'] 3) :=
  ⟨by decide, claim_C9_no_panic ['h', 'i'] 3 (by decide)⟩

end FerrisSays
